import Mathlib

/-!
Shallow embedding of the client-side store core of the book-recommender
frontend: the identity-key function and record store of
src/frontend/src/utils/storage.ts and the CSV import adapter of
src/frontend/src/utils/csvParser.ts, together with theorems settling the
specification claims about them.

JS strings are modelled as Lean strings (lists of code points);
String.prototype.toLowerCase / toUpperCase are modelled per character by
Char.toLower / Char.toUpper (exact for the basic-latin range the spec's
properties quantify over), and String.prototype.trim by removing leading
and trailing whitespace characters.  localStorage blobs are modelled as
Option String (None = absent key) and JSON.parse of a blob as an explicit
decode function returning Option (None = throw).  Store state is passed
explicitly; new Date().toISOString() is an explicit timestamp argument.
-/

namespace BookRec

/-! ### Character-level model of the JS string operations used by makeKey -/

/-- Lowering a valid scalar value below 0xd800 round-trips through Char. -/
theorem toNat_ofNat_of_lt {n : Nat} (h : n < 55296) : (Char.ofNat n).toNat = n := by
  rw [Char.ofNat, dif_pos (Or.inl h)]
  simp [Char.ofNatAux, Char.toNat]
  rfl

theorem charToNat_inj {a b : Char} (h : a.toNat = b.toNat) : a = b :=
  Char.ext (UInt32.toNat.inj h)

theorem char_eq_iff_toNat {a b : Char} : a = b ↔ a.toNat = b.toNat :=
  ⟨fun he => congrArg Char.toNat he, charToNat_inj⟩

theorem isWhitespace_iff (c : Char) :
    c.isWhitespace = true ↔ (c.toNat = 32 ∨ c.toNat = 9 ∨ c.toNat = 13 ∨ c.toNat = 10) := by
  simp only [Char.isWhitespace, Bool.or_eq_true, decide_eq_true_eq]
  rw [char_eq_iff_toNat, char_eq_iff_toNat, char_eq_iff_toNat, char_eq_iff_toNat]
  have hs : (' ').toNat = 32 := rfl
  have ht : ('\t').toNat = 9 := rfl
  have hr : ('\r').toNat = 13 := rfl
  have hn : ('\n').toNat = 10 := rfl
  rw [hs, ht, hr, hn]
  tauto

/-- toLowerCase maps whitespace to whitespace and non-whitespace to
non-whitespace. -/
theorem isWhitespace_toLower (c : Char) :
    (Char.toLower c).isWhitespace = c.isWhitespace := by
  unfold Char.toLower
  by_cases h : 65 ≤ c.toNat ∧ c.toNat ≤ 90
  · rw [if_pos h]
    have h2 : (Char.ofNat (c.toNat + 32)).toNat = c.toNat + 32 := toNat_ofNat_of_lt (by omega)
    rw [Bool.eq_iff_iff, isWhitespace_iff, isWhitespace_iff, h2]
    omega
  · rw [if_neg h]

/-- Lowercasing after uppercasing agrees with lowercasing directly. -/
theorem toLower_toUpper (c : Char) : (Char.toUpper c).toLower = c.toLower := by
  unfold Char.toUpper Char.toLower
  by_cases h : 97 ≤ c.toNat ∧ c.toNat ≤ 122
  · rw [if_pos h]
    have h1 : c.toNat - 32 < 55296 := by omega
    have h2 : (Char.ofNat (c.toNat - 32)).toNat = c.toNat - 32 := toNat_ofNat_of_lt h1
    rw [h2]
    have h3 : 65 ≤ c.toNat - 32 ∧ c.toNat - 32 ≤ 90 := by omega
    rw [if_pos h3, if_neg (by omega)]
    have h4 : c.toNat - 32 + 32 = c.toNat := by omega
    rw [h4, Char.ofNat_toNat]
  · rw [if_neg h]

/-- Model of JS String.prototype.toLowerCase on the underlying characters. -/
def jsLower (l : List Char) : List Char := l.map Char.toLower

/-- Model of JS String.prototype.toUpperCase on the underlying characters. -/
def jsUpper (l : List Char) : List Char := l.map Char.toUpper

/-- Remove leading whitespace. -/
def trimLeft (l : List Char) : List Char := l.dropWhile Char.isWhitespace

/-- Remove trailing whitespace. -/
def trimRight (l : List Char) : List Char := (l.reverse.dropWhile Char.isWhitespace).reverse

/-- Model of JS String.prototype.trim on the underlying characters. -/
def trimList (l : List Char) : List Char := trimRight (trimLeft l)

/-- JS s.trim() as a String-to-String operation. -/
def jsTrim (s : String) : String := String.mk (trimList s.data)

/-- JS s.toUpperCase() as a String-to-String operation. -/
def jsUpperStr (s : String) : String := String.mk (jsUpper s.data)

/-! ### Identity key (makeKey in storage.ts and csvParser.ts)

Source: return `${title.toLowerCase().trim()}::${author.toLowerCase().trim()}` -/

def makeKey (title author : String) : String :=
  String.mk (trimList (jsLower title.data) ++ (':' :: ':' :: []) ++ trimList (jsLower author.data))

/-- The identity key as the specification words it: lowercase(trim(title))
followed by a double-colon separator followed by lowercase(trim(author)).
Kept as a separate definition so the code's key (trim after lowercase) can
be compared with the spec's (lowercase after trim). -/
def makeKeySpec (title author : String) : String :=
  String.mk (jsLower (trimList title.data) ++ (':' :: ':' :: []) ++ jsLower (trimList author.data))

/-! ### Record model

BookEntry mirrors the interface in src/frontend/src/types/index.ts; the
incoming shape is Omit of book_key and date_updated, as taken by mergeBooks
and upsertBook. -/

structure BookEntry where
  book_key : String
  title : String
  author : String
  rating : Int
  shelf : String
  genre : Option String
  review : Option String
  bookshelves : Option String
  isbn : Option String
  source : String
  date_updated : String
deriving Repr, DecidableEq

structure IncomingBook where
  title : String
  author : String
  rating : Int
  shelf : String
  genre : Option String
  review : Option String
  bookshelves : Option String
  isbn : Option String
  source : String
deriving Repr, DecidableEq

/-- The identity key computed for an incoming record. -/
def keyOf (b : IncomingBook) : String := makeKey b.title b.author

/-- The record written by mergeBooks / upsertBook for an incoming record:
spread of the incoming fields plus the computed key and a fresh timestamp. -/
def stampEntry (now : String) (b : IncomingBook) : BookEntry :=
  { book_key := keyOf b
    title := b.title
    author := b.author
    rating := b.rating
    shelf := b.shelf
    genre := b.genre
    review := b.review
    bookshelves := b.bookshelves
    isbn := b.isbn
    source := b.source
    date_updated := now }

/-- The keys of a store snapshot, in order. -/
def keysOf (st : List BookEntry) : List String := st.map (fun e => e.book_key)

/-- storeMap.get membership test: is some entry stored under this key. -/
def hasKey (st : List BookEntry) (k : String) : Bool :=
  st.any (fun e => e.book_key = k)

/-- First stored entry with the given key (Map.get on a duplicate-free
snapshot). -/
def findByKey (st : List BookEntry) (k : String) : Option BookEntry :=
  st.find? (fun e => e.book_key = k)

/-- JS Map.set keyed by book_key: replace the (first) entry holding the
same key in place, or append at the end when the key is absent.  A JS Map
preserves insertion order and keeps the original position on overwrite. -/
def setEntry : List BookEntry → BookEntry → List BookEntry
  | [], v => [v]
  | e :: rest, v =>
      if e.book_key = v.book_key then v :: rest else e :: setEntry rest v

/-- new Map(store.map(e =&gt; [e.book_key, e])): fold the snapshot into a
key-unique insertion-ordered map. -/
def mapOfStore (st : List BookEntry) : List BookEntry :=
  st.foldl setEntry []

/-- The merge loop of mergeBooks: for each incoming record, count an
update when its key is already present, then Map.set the freshly stamped
replacement. -/
def mergeLoop (now : String) : List IncomingBook → List BookEntry → Nat →
    List BookEntry × Nat
  | [], m, updated => (m, updated)
  | b :: rest, m, updated =>
      mergeLoop now rest (setEntry m (stampEntry now b))
        (if hasKey m (keyOf b) then updated + 1 else updated)

/-- mergeBooks (storage.ts): merge incoming records into the store,
returning the new snapshot together with `total` (Map size) and `updated`. -/
def mergeBooks (now : String) (st : List BookEntry) (incoming : List IncomingBook) :
    List BookEntry × Nat × Nat :=
  let r := mergeLoop now incoming (mapOfStore st) 0
  (r.1, r.1.length, r.2)

/-- upsertBook (storage.ts): replace the entry at the first index whose
key matches, else push at the end. -/
def upsertBook (now : String) (st : List BookEntry) (b : IncomingBook) : List BookEntry :=
  match st.findIdx? (fun e => e.book_key = keyOf b) with
  | some i => st.set i (stampEntry now b)
  | none => st ++ [stampEntry now b]

/-- getRatedBooks (storage.ts): books with rating &ge; 1. -/
def getRatedBooks (st : List BookEntry) : List BookEntry :=
  st.filter (fun e => 1 ≤ e.rating)

/-- readStore (storage.ts): localStorage.getItem returns the optional raw
blob; a missing or falsy (empty) blob and a failing JSON.parse (decode =
none) all degrade to the empty snapshot. -/
def readStore (decode : String → Option (List BookEntry)) (raw : Option String) :
    List BookEntry :=
  match raw with
  | none => []
  | some s => if s = "" then [] else (decode s).getD []

/-- getShownBookIds (storage.ts): same silent degradation for the shown-id
blob. -/
def getShownBookIds (decode : String → Option (List String)) (raw : Option String) :
    List String :=
  match raw with
  | none => []
  | some s => if s = "" then [] else (decode s).getD []

/-- Iteration order of new Set(l): keep the first occurrence of each
element, remembering what has been seen. -/
def dedupFirstAux (seen : List String) : List String → List String
  | [] => []
  | a :: l => if a ∈ seen then dedupFirstAux seen l else a :: dedupFirstAux (a :: seen) l

/-- Array.from(new Set(l)). -/
def dedupFirst (l : List String) : List String := dedupFirstAux [] l

/-- addShownBookIds (storage.ts): Array.from(new Set([...current, ...ids]))
written against the current shown list. -/
def addShownBookIds (current ids : List String) : List String :=
  dedupFirst (current ++ ids)

/-! ### CSV import adapter (csvParser.ts)

Papa.parse with header:true hands the complete-callback an array of rows,
each a string-keyed record; a row is modelled as an association list from
column name to cell string.  The adapter logic inside the callback is
embedded below; the tokenizer itself is the external library. -/

/-- One parsed CSV row: column name to cell value. -/
def Row := List (String × String)

/-- JS row[col]: the cell when the column is present, undefined otherwise. -/
def getField (row : Row) (k : String) : Option String :=
  (List.find? (fun p => p.1 = k) row).map (fun p => p.2)

/-- JS (col in firstRow): key presence. -/
def hasCol (row : Row) (k : String) : Bool :=
  (List.find? (fun p => p.1 = k) row).isSome

/-- The required Goodreads columns checked against the first row. -/
def requiredCols : List String := ["Title", "Author", "My Rating", "Exclusive Shelf"]

/-- JS row[k]?.trim() || dflt : the default on a missing column, an empty
trim, or an all-whitespace cell. -/
def fieldOr (row : Row) (k dflt : String) : String :=
  match getField row k with
  | none => dflt
  | some s => if jsTrim s = "" then dflt else jsTrim s

/-- JS row[k]?.trim() || undefined. -/
def fieldOpt (row : Row) (k : String) : Option String :=
  match getField row k with
  | none => none
  | some s => if jsTrim s = "" then none else some (jsTrim s)

/-- Truthiness of row['Title']?.trim(): the row-keeping filter. -/
def rowHasTitle (row : Row) : Bool :=
  match getField row "Title" with
  | none => false
  | some s => jsTrim s ≠ ""

/-- Accumulate decimal digits. -/
def natOfDigits (l : List Char) : Nat :=
  l.foldl (fun acc c => acc * 10 + (c.toNat - 48)) 0

/-- Model of JS parseInt(s, 10): skip leading whitespace, one optional
sign, then leading decimal digits; none models NaN. -/
def jsParseInt (s : String) : Option Int :=
  let l := s.data.dropWhile Char.isWhitespace
  let sgn : Bool × List Char :=
    match l with
    | '-' :: r => (true, r)
    | '+' :: r => (false, r)
    | _ => (false, l)
  let ds := sgn.2.takeWhile Char.isDigit
  if ds.isEmpty then none
  else some (if sgn.1 then -(natOfDigits ds : Int) else (natOfDigits ds : Int))

/-- JS parseInt(row['My Rating'] || '0', 10) || 0. -/
def parseRating (row : Row) : Int :=
  let s := match getField row "My Rating" with
    | none => "0"
    | some v => if v = "" then "0" else v
  (jsParseInt s).getD 0

/-- Strip a leading ="? occurrence (regex ^="?). -/
def stripLeadEq (l : List Char) : List Char :=
  match l with
  | '=' :: '"' :: r => r
  | '=' :: r => r
  | _ => l

/-- Strip one trailing quote when present (regex "?$). -/
def stripTrailQuote (l : List Char) : List Char :=
  match l.reverse with
  | '"' :: r => r.reverse
  | _ => l

/-- cleanIsbn (csvParser.ts): undefined and empty in, undefined out; else
strip the Excel ="..." wrapping, trim, and turn an empty result into
undefined. -/
def cleanIsbn (val : Option String) : Option String :=
  match val with
  | none => none
  | some s =>
      if s = "" then none
      else
        let t := trimList (stripTrailQuote (stripLeadEq s.data))
        if t.isEmpty then none else some (String.mk t)

/-- JS row['ISBN'] || row['ISBN13']. -/
def isbnRaw (row : Row) : Option String :=
  match getField row "ISBN" with
  | some s => if s = "" then getField row "ISBN13" else some s
  | none => getField row "ISBN13"

/-- The per-row record produced by the adapter's map step. -/
def rowEntry (now : String) (row : Row) : BookEntry :=
  let title := fieldOr row "Title" ""
  let author := fieldOr row "Author" ""
  { book_key := makeKey title author
    title := title
    author := author
    rating := parseRating row
    shelf := fieldOr row "Exclusive Shelf" "read"
    genre := none
    review := fieldOpt row "My Review"
    bookshelves := fieldOpt row "Bookshelves"
    isbn := cleanIsbn (isbnRaw row)
    source := "goodreads"
    date_updated := now }

/-- The failure conditions of the complete-callback. -/
inductive CSVError where
  | emptyInput : CSVError
  | schemaMismatch (missing : List String) : CSVError
deriving Repr, DecidableEq

/-- parseGoodreadsCSV (csvParser.ts), complete-callback logic: reject an
empty table, reject a first row missing required columns naming exactly the
missing ones, else keep the rows with a truthy trimmed title and map each
to a record. -/
def parseGoodreadsCSV (now : String) (rows : List Row) : Except CSVError (List BookEntry) :=
  match rows with
  | [] => Except.error CSVError.emptyInput
  | firstRow :: rest =>
      let missing := requiredCols.filter (fun col => !hasCol firstRow col)
      if missing.isEmpty then
        Except.ok (((firstRow :: rest).filter rowHasTitle).map (rowEntry now))
      else Except.error (CSVError.schemaMismatch missing)

/-! ### Reachable store states -/

/-- Store snapshots reachable from the empty store by any sequence of
mergeBooks and upsertBook calls. -/
inductive Reachable : List BookEntry → Prop where
  | empty : Reachable []
  | merge (now : String) (incoming : List IncomingBook) {st : List BookEntry} :
      Reachable st → Reachable (mergeBooks now st incoming).1
  | upsert (now : String) (b : IncomingBook) {st : List BookEntry} :
      Reachable st → Reachable (upsertBook now st b)

/-- The store invariant: pairwise-distinct identity keys, and every stored
record keyed by the identity derived from its own title and author. -/
def StoreInv (st : List BookEntry) : Prop :=
  (keysOf st).Nodup ∧ ∀ e ∈ st, e.book_key = makeKey e.title e.author

/-! ### Map lemmas -/

theorem hasKey_iff {m : List BookEntry} {k : String} :
    hasKey m k = true ↔ k ∈ keysOf m := by
  rw [hasKey, List.any_eq_true]
  simp only [decide_eq_true_eq, keysOf, List.mem_map]

theorem hasKey_eq_false_iff {m : List BookEntry} {k : String} :
    hasKey m k = false ↔ k ∉ keysOf m := by
  rw [← Bool.not_eq_true, not_iff_not]
  exact hasKey_iff

theorem keysOf_setEntry (m : List BookEntry) (v : BookEntry) :
    keysOf (setEntry m v) =
      if hasKey m v.book_key then keysOf m else keysOf m ++ [v.book_key] := by
  induction m with
  | nil => simp [setEntry, hasKey, keysOf]
  | cons e rest ih =>
      by_cases he : e.book_key = v.book_key
      · simp [setEntry, he, hasKey, keysOf]
      · have h1 : hasKey (e :: rest) v.book_key = hasKey rest v.book_key := by
          simp [hasKey, List.any_cons]
          intro hc
          exact absurd hc he
        simp only [setEntry, if_neg he, h1]
        by_cases h2 : hasKey rest v.book_key
        · simp only [h2, if_pos, keysOf, List.map_cons] at ih ⊢
          rw [ih]
        · simp only [h2, if_neg, Bool.false_eq_true, not_false_iff, keysOf,
            List.map_cons] at ih ⊢
          rw [ih]
          simp

theorem keysOf_setEntry_nodup {m : List BookEntry} {v : BookEntry}
    (h : (keysOf m).Nodup) : (keysOf (setEntry m v)).Nodup := by
  rw [keysOf_setEntry]
  by_cases hk : hasKey m v.book_key
  · rwa [if_pos hk]
  · rw [if_neg hk]
    have hv : v.book_key ∉ keysOf m := hasKey_eq_false_iff.1 (by simpa using hk)
    simp [List.nodup_append, h, hv]

theorem length_setEntry (m : List BookEntry) (v : BookEntry) :
    (setEntry m v).length = if hasKey m v.book_key then m.length else m.length + 1 := by
  have := keysOf_setEntry m v
  have hl : ∀ l : List BookEntry, (keysOf l).length = l.length := by
    intro l; simp [keysOf]
  by_cases hk : hasKey m v.book_key
  · rw [if_pos hk] at this ⊢
    have := congrArg List.length this
    simpa [hl] using this
  · rw [if_neg hk] at this ⊢
    have := congrArg List.length this
    simpa [hl] using this

theorem setEntry_of_not_has {m : List BookEntry} {v : BookEntry}
    (h : hasKey m v.book_key = false) : setEntry m v = m ++ [v] := by
  induction m with
  | nil => simp [setEntry]
  | cons e rest ih =>
      simp only [hasKey, List.any_cons, Bool.or_eq_false_iff] at h
      have he : e.book_key ≠ v.book_key := by
        intro hc
        simp [hc] at h
      rw [setEntry, if_neg he, ih]
      · simp
      · simp [hasKey, h.2]

theorem mem_setEntry_of_ne {m : List BookEntry} {v e : BookEntry}
    (he : e ∈ m) (hne : e.book_key ≠ v.book_key) : e ∈ setEntry m v := by
  induction m with
  | nil => cases he
  | cons a rest ih =>
      rw [setEntry]
      by_cases ha : a.book_key = v.book_key
      · rw [if_pos ha]
        rcases List.mem_cons.1 he with h1 | h1
        · exact absurd (h1 ▸ hne) (by simp [ha])
        · exact List.mem_cons_of_mem _ h1
      · rw [if_neg ha]
        rcases List.mem_cons.1 he with h1 | h1
        · exact h1 ▸ List.mem_cons_self _ _
        · exact List.mem_cons_of_mem _ (ih h1)

theorem mem_of_mem_setEntry {m : List BookEntry} {v e : BookEntry}
    (he : e ∈ setEntry m v) : e = v ∨ e ∈ m := by
  induction m with
  | nil => simpa [setEntry] using he
  | cons a rest ih =>
      rw [setEntry] at he
      by_cases ha : a.book_key = v.book_key
      · rw [if_pos ha] at he
        rcases List.mem_cons.1 he with h1 | h1
        · exact Or.inl h1
        · exact Or.inr (List.mem_cons_of_mem _ h1)
      · rw [if_neg ha] at he
        rcases List.mem_cons.1 he with h1 | h1
        · exact Or.inr (h1 ▸ List.mem_cons_self _ _)
        · rcases ih h1 with h2 | h2
          · exact Or.inl h2
          · exact Or.inr (List.mem_cons_of_mem _ h2)

theorem findByKey_setEntry_self (m : List BookEntry) (v : BookEntry) :
    findByKey (setEntry m v) v.book_key = some v := by
  induction m with
  | nil => simp [setEntry, findByKey]
  | cons a rest ih =>
      rw [setEntry]
      by_cases ha : a.book_key = v.book_key
      · rw [if_pos ha]
        simp [findByKey]
      · rw [if_neg ha]
        rw [findByKey, List.find?_cons_of_neg _ (by simpa using ha)]
        exact ih

theorem findByKey_setEntry_ne {k : String} (m : List BookEntry) (v : BookEntry)
    (hk : k ≠ v.book_key) : findByKey (setEntry m v) k = findByKey m k := by
  induction m with
  | nil =>
      rw [setEntry, findByKey, findByKey]
      rw [List.find?_cons_of_neg _ (by simp; intro h; exact hk h.symm)]
  | cons a rest ih =>
      rw [setEntry]
      by_cases ha : a.book_key = v.book_key
      · rw [if_pos ha]
        have hak : ¬a.book_key = k := by rw [ha]; intro h; exact hk h.symm
        rw [findByKey, findByKey]
        rw [List.find?_cons_of_neg _ (by simp; intro h; exact hk h.symm),
          List.find?_cons_of_neg _ (by simpa using hak)]
      · rw [if_neg ha]
        by_cases hak : a.book_key = k
        · rw [findByKey, findByKey]
          rw [List.find?_cons_of_pos _ (by simpa using hak),
            List.find?_cons_of_pos _ (by simpa using hak)]
        · rw [findByKey, findByKey]
          rw [List.find?_cons_of_neg _ (by simpa using hak),
            List.find?_cons_of_neg _ (by simpa using hak)]
          exact ih

theorem stampEntry_key (now : String) (b : IncomingBook) :
    (stampEntry now b).book_key = keyOf b := rfl

theorem hasKey_setEntry (m : List BookEntry) (v : BookEntry) (k : String) :
    hasKey (setEntry m v) k = true ↔ hasKey m k = true ∨ k = v.book_key := by
  rw [hasKey_iff, hasKey_iff, keysOf_setEntry]
  by_cases h : hasKey m v.book_key = true
  · rw [if_pos h]
    constructor
    · exact Or.inl
    · rintro (h1 | h1)
      · exact h1
      · rw [h1]
        exact hasKey_iff.1 h
  · rw [if_neg h]
    simp [List.mem_append]

theorem hasKey_setEntry_eq (m : List BookEntry) (v : BookEntry) (k : String) :
    hasKey (setEntry m v) k = (hasKey m k || decide (k = v.book_key)) := by
  rw [Bool.eq_iff_iff, Bool.or_eq_true, decide_eq_true_eq]
  exact hasKey_setEntry m v k

theorem foldl_setEntry_nodup (l acc : List BookEntry)
    (h : (keysOf acc).Nodup) : (keysOf (List.foldl setEntry acc l)).Nodup := by
  induction l generalizing acc with
  | nil => simpa using h
  | cons e rest ih => exact ih _ (keysOf_setEntry_nodup h)

theorem mapOfStore_nodup (st : List BookEntry) : (keysOf (mapOfStore st)).Nodup :=
  foldl_setEntry_nodup st [] (by simp [keysOf])

theorem mem_foldl_setEntry (l acc : List BookEntry) {e : BookEntry}
    (he : e ∈ List.foldl setEntry acc l) : e ∈ acc ∨ e ∈ l := by
  induction l generalizing acc with
  | nil => exact Or.inl (by simpa using he)
  | cons a rest ih =>
      rcases ih _ he with h1 | h1
      · rcases mem_of_mem_setEntry h1 with h2 | h2
        · exact Or.inr (h2 ▸ List.mem_cons_self _ _)
        · exact Or.inl h2
      · exact Or.inr (List.mem_cons_of_mem _ h1)

theorem mem_mapOfStore {st : List BookEntry} {e : BookEntry}
    (he : e ∈ mapOfStore st) : e ∈ st := by
  rcases mem_foldl_setEntry st [] he with h | h
  · exact absurd h (List.not_mem_nil e)
  · exact h

theorem foldl_setEntry_eq_append (l acc : List BookEntry)
    (h : (keysOf (acc ++ l)).Nodup) : List.foldl setEntry acc l = acc ++ l := by
  induction l generalizing acc with
  | nil => simp
  | cons e rest ih =>
      have hkey : hasKey acc e.book_key = false := by
        rw [hasKey_eq_false_iff]
        intro hmem
        have hd := (List.nodup_append.1 (by simpa [keysOf] using h)).2.2
        exact hd hmem (by simp)
      rw [List.foldl_cons, setEntry_of_not_has hkey,
        ih (acc ++ [e]) (by simpa [keysOf, List.append_assoc] using h)]
      simp

theorem mapOfStore_eq_self {st : List BookEntry} (h : (keysOf st).Nodup) :
    mapOfStore st = st := by
  have := foldl_setEntry_eq_append st [] (by simpa [keysOf] using h)
  simpa [mapOfStore] using this

theorem mergeLoop_nil (now : String) (m : List BookEntry) (u : Nat) :
    mergeLoop now [] m u = (m, u) := rfl

theorem mergeLoop_cons (now : String) (b : IncomingBook) (rest : List IncomingBook)
    (m : List BookEntry) (u : Nat) :
    mergeLoop now (b :: rest) m u =
      mergeLoop now rest (setEntry m (stampEntry now b))
        (if hasKey m (keyOf b) then u + 1 else u) := rfl

theorem mergeLoop_nodup (now : String) (inc : List IncomingBook) (m : List BookEntry)
    (u : Nat) (h : (keysOf m).Nodup) : (keysOf (mergeLoop now inc m u).1).Nodup := by
  induction inc generalizing m u with
  | nil => simpa [mergeLoop_nil] using h
  | cons b rest ih =>
      rw [mergeLoop_cons]
      exact ih _ _ (keysOf_setEntry_nodup h)

theorem mergeLoop_frame (now : String) (inc : List IncomingBook) (m : List BookEntry)
    (u : Nat) {e : BookEntry} (he : e ∈ m) (hk : e.book_key ∉ inc.map keyOf) :
    e ∈ (mergeLoop now inc m u).1 := by
  induction inc generalizing m u with
  | nil => simpa [mergeLoop_nil] using he
  | cons b rest ih =>
      rw [mergeLoop_cons]
      have h1 : e.book_key ≠ (stampEntry now b).book_key := by
        rw [stampEntry_key]
        intro hc
        exact hk (by simp [hc])
      exact ih _ _ (mem_setEntry_of_ne he h1) (by intro hc; exact hk (by simp [hc]))

theorem mergeLoop_mem (now : String) (inc : List IncomingBook) (m : List BookEntry)
    (u : Nat) {e : BookEntry} (he : e ∈ (mergeLoop now inc m u).1) :
    e ∈ m ∨ ∃ b ∈ inc, e = stampEntry now b := by
  induction inc generalizing m u with
  | nil => exact Or.inl (by simpa [mergeLoop_nil] using he)
  | cons b rest ih =>
      rw [mergeLoop_cons] at he
      rcases ih _ _ he with h1 | h1
      · rcases mem_of_mem_setEntry h1 with h2 | h2
        · exact Or.inr ⟨b, List.mem_cons_self _ _, h2⟩
        · exact Or.inl h2
      · rcases h1 with ⟨b2, hb2, he2⟩
        exact Or.inr ⟨b2, List.mem_cons_of_mem _ hb2, he2⟩

theorem mergeLoop_hasKey (now : String) (inc : List IncomingBook) (m : List BookEntry)
    (u : Nat) (k : String) :
    hasKey (mergeLoop now inc m u).1 k = true ↔ hasKey m k = true ∨ k ∈ inc.map keyOf := by
  induction inc generalizing m u with
  | nil => simp [mergeLoop_nil]
  | cons b rest ih =>
      rw [mergeLoop_cons, ih, hasKey_setEntry]
      rw [stampEntry_key]
      simp [List.mem_cons]
      tauto

theorem mergeLoop_findByKey_frame (now : String) (inc : List IncomingBook)
    (m : List BookEntry) (u : Nat) (k : String) (hk : k ∉ inc.map keyOf) :
    findByKey (mergeLoop now inc m u).1 k = findByKey m k := by
  induction inc generalizing m u with
  | nil => rfl
  | cons b rest ih =>
      rw [mergeLoop_cons]
      have h1 : k ≠ (stampEntry now b).book_key := by
        rw [stampEntry_key]
        intro hc
        exact hk (by simp [hc])
      rw [ih _ _ (by intro hc; exact hk (by simp [hc]))]
      exact findByKey_setEntry_ne m _ h1

theorem mergeLoop_findByKey_self (now : String) (inc : List IncomingBook)
    (m : List BookEntry) (u : Nat) (hn : (inc.map keyOf).Nodup) :
    ∀ b ∈ inc, findByKey (mergeLoop now inc m u).1 (keyOf b) = some (stampEntry now b) := by
  induction inc generalizing m u with
  | nil => intro b hb; cases hb
  | cons a rest ih =>
      have hn2 : keyOf a ∉ rest.map keyOf ∧ (rest.map keyOf).Nodup := by
        rw [List.map_cons, List.nodup_cons] at hn
        exact hn
      obtain ⟨ha, hrest⟩ := hn2
      intro b hb
      rw [mergeLoop_cons]
      rcases List.mem_cons.1 hb with h1 | h1
      · subst h1
        rw [mergeLoop_findByKey_frame _ _ _ _ _ ha]
        have := findByKey_setEntry_self m (stampEntry now b)
        rwa [stampEntry_key] at this
      · exact ih _ _ hrest b h1

theorem mergeLoop_all_present (now : String) (inc : List IncomingBook)
    (m : List BookEntry) (u : Nat) (h : ∀ b ∈ inc, hasKey m (keyOf b) = true) :
    (mergeLoop now inc m u).1.length = m.length ∧
      (mergeLoop now inc m u).2 = u + inc.length := by
  induction inc generalizing m u with
  | nil => simp [mergeLoop_nil]
  | cons b rest ih =>
      rw [mergeLoop_cons]
      have hb : hasKey m (keyOf b) = true := h b (List.mem_cons_self _ _)
      rw [if_pos hb]
      have hrest : ∀ a ∈ rest, hasKey (setEntry m (stampEntry now b)) (keyOf a) = true := by
        intro a ha
        rw [hasKey_setEntry_eq, h a (List.mem_cons_of_mem _ ha)]
        simp
      obtain ⟨h1, h2⟩ := ih _ _ hrest
      refine ⟨?_, ?_⟩
      · rw [h1, length_setEntry, stampEntry_key, if_pos hb]
      · rw [h2, List.length_cons]
        omega

theorem mergeLoop_updated (now : String) (inc : List IncomingBook) (m : List BookEntry)
    (u : Nat) (hn : (inc.map keyOf).Nodup) :
    (mergeLoop now inc m u).2 = u + (inc.filter (fun b => hasKey m (keyOf b))).length := by
  induction inc generalizing m u with
  | nil => simp [mergeLoop_nil]
  | cons b rest ih =>
      have hn2 : keyOf b ∉ rest.map keyOf ∧ (rest.map keyOf).Nodup := by
        rw [List.map_cons, List.nodup_cons] at hn
        exact hn
      obtain ⟨hb, hrest⟩ := hn2
      rw [mergeLoop_cons, ih _ _ hrest]
      have hfeq : rest.filter (fun a => hasKey (setEntry m (stampEntry now b)) (keyOf a))
          = rest.filter (fun a => hasKey m (keyOf a)) := by
        apply List.filter_congr
        intro a ha
        rw [hasKey_setEntry_eq, stampEntry_key]
        have hne : ¬(keyOf a = keyOf b) := by
          intro hc
          exact hb (by rw [← hc]; exact List.mem_map_of_mem keyOf ha)
        rw [decide_eq_false hne, Bool.or_false]
      rw [hfeq]
      by_cases hkb : hasKey m (keyOf b) = true
      · rw [if_pos hkb, List.filter_cons_of_pos (by simpa using hkb), List.length_cons]
        omega
      · rw [if_neg hkb, List.filter_cons_of_neg (by simpa using hkb)]

theorem upsertBook_eq_setEntry (now : String) (st : List BookEntry) (b : IncomingBook) :
    upsertBook now st b = setEntry st (stampEntry now b) := by
  induction st with
  | nil => rfl
  | cons e rest ih =>
      by_cases he : e.book_key = (stampEntry now b).book_key
      · rw [upsertBook, setEntry, if_pos he]
        rw [List.findIdx?_cons, if_pos (by rw [stampEntry_key] at he; simpa using he)]
        simp
      · rw [upsertBook, setEntry, if_neg he]
        rw [List.findIdx?_cons,
          if_neg (by rw [stampEntry_key] at he; simpa using he), List.findIdx?_succ]
        rw [← ih, upsertBook]
        cases hfind : rest.findIdx? (fun x => x.book_key = keyOf b) with
        | none => simp [hfind]
        | some i => simp [hfind]

/-! ### String lemmas for the identity-key claims -/

theorem jsLower_append (l1 l2 : List Char) :
    jsLower (l1 ++ l2) = jsLower l1 ++ jsLower l2 := by
  simp [jsLower]

theorem trimLeft_jsLower (l : List Char) : trimLeft (jsLower l) = jsLower (trimLeft l) := by
  induction l with
  | nil => rfl
  | cons c rest ih =>
      simp only [jsLower, List.map_cons, trimLeft, List.dropWhile_cons] at ih ⊢
      rw [isWhitespace_toLower c]
      by_cases h : c.isWhitespace = true
      · simpa [h] using ih
      · simp [h, jsLower]

theorem jsLower_reverse (l : List Char) : jsLower l.reverse = (jsLower l).reverse := by
  simp [jsLower]

theorem trimRight_jsLower (l : List Char) : trimRight (jsLower l) = jsLower (trimRight l) := by
  rw [trimRight, trimRight, ← jsLower_reverse]
  have := trimLeft_jsLower l.reverse
  rw [trimLeft, trimLeft] at this
  rw [this, jsLower_reverse]

theorem trimList_jsLower (l : List Char) : trimList (jsLower l) = jsLower (trimList l) := by
  rw [trimList, trimList, trimLeft_jsLower, trimRight_jsLower]

theorem jsLower_jsUpper (l : List Char) : jsLower (jsUpper l) = jsLower l := by
  induction l with
  | nil => rfl
  | cons c rest ih =>
      simp only [jsLower, jsUpper, List.map_cons] at ih ⊢
      rw [toLower_toUpper]
      rw [ih]

theorem all_ws_jsLower {p : List Char} (hp : ∀ c ∈ p, c.isWhitespace = true) :
    ∀ c ∈ jsLower p, c.isWhitespace = true := by
  intro c hc
  rcases List.mem_map.1 hc with ⟨d, hd, hdc⟩
  rw [← hdc, isWhitespace_toLower]
  exact hp d hd

theorem trimLeft_pad {p : List Char} (hp : ∀ c ∈ p, c.isWhitespace = true)
    (l : List Char) : trimLeft (p ++ l) = trimLeft l := by
  rw [trimLeft, trimLeft]
  exact List.dropWhile_append_of_pos hp

theorem trimRight_pad {q : List Char} (hq : ∀ c ∈ q, c.isWhitespace = true)
    (l : List Char) : trimRight (l ++ q) = trimRight l := by
  rw [trimRight, trimRight, List.reverse_append]
  rw [List.dropWhile_append_of_pos (by intro c hc; exact hq c (List.mem_reverse.1 hc))]

theorem trimLeft_all_ws {q : List Char} (hq : ∀ c ∈ q, c.isWhitespace = true) :
    trimLeft q = [] := by
  have := trimLeft_pad hq ([] : List Char)
  simpa using this

theorem trimList_pad {p q : List Char} (hp : ∀ c ∈ p, c.isWhitespace = true)
    (hq : ∀ c ∈ q, c.isWhitespace = true) (l : List Char) :
    trimList (p ++ l ++ q) = trimList l := by
  rw [trimList, List.append_assoc, trimLeft_pad hp]
  rw [trimList, trimLeft, trimLeft, List.dropWhile_append]
  by_cases h : (l.dropWhile Char.isWhitespace).isEmpty = true
  · rw [if_pos h]
    have h1 : l.dropWhile Char.isWhitespace = [] := by
      rwa [List.isEmpty_iff] at h
    rw [h1]
    have h2 : q.dropWhile Char.isWhitespace = [] := trimLeft_all_ws hq
    rw [h2]
  · rw [if_neg h]
    exact trimRight_pad hq _

/-! ### Sample records for witnesses and counterexamples -/

def bookA : IncomingBook :=
  { title := "Dune", author := "Frank Herbert", rating := 5, shelf := "read",
    genre := none, review := none, bookshelves := none, isbn := none, source := "goodreads" }

def bookB : IncomingBook :=
  { title := "Emma", author := "Jane Austen", rating := 3, shelf := "read",
    genre := none, review := none, bookshelves := none, isbn := none, source := "manual" }

def entryB : BookEntry := stampEntry "t0" bookB

def entryUnrated : BookEntry :=
  { book_key := "emma::jane austen", title := "Emma", author := "Jane Austen",
    rating := 0, shelf := "to-read", genre := none, review := none,
    bookshelves := none, isbn := none, source := "goodreads", date_updated := "t0" }

theorem data_mk (l : List Char) : (String.mk l).data = l := rfl

/-! ### Claim theorems -/

/-- C4: the identity key computed by makeKey equals the spec's
lowercase(trim(title)) ++ double colon ++ lowercase(trim(author)); it is
unchanged by uppercasing the title, and invariant under added
leading/trailing whitespace on title and author.  Determinism is inherent:
makeKey is a function of its two arguments. -/
theorem makeKey_spec_props (title author : String) (p q r s : List Char)
    (hp : ∀ c ∈ p, c.isWhitespace = true) (hq : ∀ c ∈ q, c.isWhitespace = true)
    (hr : ∀ c ∈ r, c.isWhitespace = true) (hs : ∀ c ∈ s, c.isWhitespace = true) :
    makeKey title author = makeKeySpec title author ∧
    makeKey (jsUpperStr title) author = makeKey title author ∧
    makeKey (String.mk (p ++ title.data ++ q)) (String.mk (r ++ author.data ++ s)) =
      makeKey title author := by
  refine ⟨?_, ?_, ?_⟩
  · rw [makeKey, makeKeySpec, trimList_jsLower, trimList_jsLower]
  · rw [makeKey, makeKey, jsUpperStr, data_mk, jsLower_jsUpper]
  · rw [makeKey, makeKey, data_mk, data_mk]
    rw [jsLower_append, jsLower_append, jsLower_append, jsLower_append]
    rw [trimList_pad (all_ws_jsLower hp) (all_ws_jsLower hq)]
    rw [trimList_pad (all_ws_jsLower hr) (all_ws_jsLower hs)]

/-- Witness for C4 at concrete strings and whitespace paddings. -/
theorem makeKey_spec_props_witness :
    makeKey "Dune" "Frank Herbert" = makeKeySpec "Dune" "Frank Herbert" ∧
    makeKey (jsUpperStr "Dune") "Frank Herbert" = makeKey "Dune" "Frank Herbert" ∧
    makeKey (String.mk ([' '] ++ "Dune".data ++ ['\t'])) (String.mk (['\n'] ++ "Frank Herbert".data ++ [' '])) =
      makeKey "Dune" "Frank Herbert" :=
  makeKey_spec_props "Dune" "Frank Herbert" [' '] ['\t'] ['\n'] [' ']
    (by decide) (by decide) (by decide) (by decide)

/-- C9: getRatedBooks returns exactly the stored records with rating at
least 1, with no condition on shelf, and the empty list when no stored
record is rated. -/
theorem getRatedBooks_spec :
    (∀ st (e : BookEntry), e ∈ getRatedBooks st ↔ e ∈ st ∧ 1 ≤ e.rating) ∧
    (∀ st : List BookEntry, (∀ e ∈ st, e.rating < 1) → getRatedBooks st = []) := by
  constructor
  · intro st e
    simp [getRatedBooks, List.mem_filter]
  · intro st h
    rw [getRatedBooks, List.filter_eq_nil_iff]
    intro e he
    simpa using Int.not_le.2 (h e he)

/-- Witness for C9: a rated entry is kept, an unrated store filters to
empty. -/
theorem getRatedBooks_spec_witness :
    (entryB ∈ getRatedBooks [entryUnrated, entryB] ↔
      entryB ∈ [entryUnrated, entryB] ∧ 1 ≤ entryB.rating) ∧
    getRatedBooks [entryUnrated] = [] :=
  ⟨getRatedBooks_spec.1 [entryUnrated, entryB] entryB,
   getRatedBooks_spec.2 [entryUnrated] (by decide)⟩

theorem mem_dedupFirstAux (seen l : List String) (x : String) :
    x ∈ dedupFirstAux seen l ↔ x ∈ l ∧ x ∉ seen := by
  induction l generalizing seen with
  | nil => simp [dedupFirstAux]
  | cons a rest ih =>
      rw [dedupFirstAux]
      by_cases ha : a ∈ seen
      · rw [if_pos ha, ih]
        simp only [List.mem_cons]
        constructor
        · rintro ⟨h1, h2⟩
          exact ⟨Or.inr h1, h2⟩
        · rintro ⟨h1 | h1, h2⟩
          · exact absurd (h1 ▸ ha) h2
          · exact ⟨h1, h2⟩
      · rw [if_neg ha]
        simp only [List.mem_cons, ih, List.mem_cons]
        constructor
        · rintro (h1 | ⟨h1, h2⟩)
          · exact ⟨Or.inl h1, h1 ▸ ha⟩
          · refine ⟨Or.inr h1, fun hc => h2 (Or.inr hc)⟩
        · rintro ⟨h1 | h1, h2⟩
          · exact Or.inl h1
          · by_cases hxa : x = a
            · exact Or.inl hxa
            · exact Or.inr ⟨h1, fun hc => (by rcases hc with hc | hc; exact hxa hc; exact h2 hc)⟩

/-- C8: addShownBookIds is membership-wise the deduplicated union of the
current shown list and the new ids; membership never shrinks across any
sequence of calls; and the concrete two-call scenario yields exactly the
membership x, y, z. -/
theorem addShownBookIds_spec :
    (∀ cur ids (x : String), x ∈ addShownBookIds cur ids ↔ x ∈ cur ∨ x ∈ ids) ∧
    (∀ cur calls (x : String), x ∈ cur → x ∈ List.foldl addShownBookIds cur calls) ∧
    (∀ x : String, x ∈ addShownBookIds (addShownBookIds [] ["x", "y"]) ["y", "z"] ↔
      (x = "x" ∨ x = "y" ∨ x = "z")) := by
  have hmem : ∀ cur ids (x : String), x ∈ addShownBookIds cur ids ↔ x ∈ cur ∨ x ∈ ids := by
    intro cur ids x
    rw [addShownBookIds, dedupFirst, mem_dedupFirstAux]
    simp [List.mem_append]
  refine ⟨hmem, ?_, ?_⟩
  · intro cur calls
    induction calls generalizing cur with
    | nil => intro x hx; simpa using hx
    | cons ids rest ih =>
        intro x hx
        rw [List.foldl_cons]
        exact ih _ x ((hmem cur ids x).2 (Or.inl hx))
  · intro x
    have h : addShownBookIds (addShownBookIds [] ["x", "y"]) ["y", "z"] = ["x", "y", "z"] := by
      decide
    rw [h]
    simp [List.mem_cons]

/-- Witness for C8: monotone growth applied at a concrete state and call
sequence. -/
theorem addShownBookIds_spec_witness :
    "a" ∈ List.foldl addShownBookIds ["a"] [["b"], ["c"]] :=
  addShownBookIds_spec.2.1 ["a"] [["b"], ["c"]] "a" (by decide)

/-- C7: a missing blob and a blob the JSON decoder rejects both read back
as the empty store and the empty shown list; no error propagates. -/
theorem readStore_recovers (decB : String → Option (List BookEntry))
    (decS : String → Option (List String)) (sB sS : String)
    (hB : decB sB = none) (hS : decS sS = none) :
    readStore decB none = [] ∧ readStore decB (some sB) = [] ∧
    getShownBookIds decS none = [] ∧ getShownBookIds decS (some sS) = [] := by
  refine ⟨rfl, ?_, rfl, ?_⟩
  · rw [readStore]
    by_cases h : sB = ""
    · rw [if_pos h]
    · rw [if_neg h, hB]
      rfl
  · rw [getShownBookIds]
    by_cases h : sS = ""
    · rw [if_pos h]
    · rw [if_neg h, hS]
      rfl

/-- Witness for C7 with a decoder that rejects every blob. -/
theorem readStore_recovers_witness :
    readStore (fun _ => none) none = [] ∧
    readStore (fun _ => none) (some "not json") = [] ∧
    getShownBookIds (fun _ => none) none = [] ∧
    getShownBookIds (fun _ => none) (some "not json") = [] :=
  readStore_recovers (fun _ => none) (fun _ => none) "not json" "not json" rfl rfl

/-- A well-formed Goodreads row for Dune. -/
def duneRow : Row :=
  [("Title", "Dune"), ("Author", "Frank Herbert"), ("My Rating", "5"),
   ("Exclusive Shelf", "read")]

/-- A row whose title is blank after trimming. -/
def blankTitleRow : Row :=
  [("Title", "  "), ("Author", "Nobody"), ("My Rating", "2"),
   ("Exclusive Shelf", "read")]

/-- A row lacking the Author column. -/
def noAuthorRow : Row :=
  [("Title", "Dune"), ("My Rating", "5"), ("Exclusive Shelf", "read")]

/-- The record the adapter produces for duneRow at a given timestamp. -/
def duneParsed (now : String) : BookEntry :=
  { book_key := "dune::frank herbert"
    title := "Dune"
    author := "Frank Herbert"
    rating := 5
    shelf := "read"
    genre := none
    review := none
    bookshelves := none
    isbn := none
    source := "goodreads"
    date_updated := now }

/-- C5: the adapter fails with emptyInput exactly on an empty table; on a
non-empty table it fails with schemaMismatch naming exactly the required
columns absent from the first row when any is absent, and otherwise
succeeds, keeping exactly the rows with a non-blank title and mapping each
kept row to its record. -/
theorem parseGoodreadsCSV_spec (now : String) (rows : List Row) :
    (parseGoodreadsCSV now rows = Except.error CSVError.emptyInput ↔ rows = []) ∧
    (∀ firstRow rest, rows = firstRow :: rest →
      (requiredCols.filter (fun col => !hasCol firstRow col) ≠ [] →
        parseGoodreadsCSV now rows =
          Except.error (CSVError.schemaMismatch
            (requiredCols.filter (fun col => !hasCol firstRow col)))) ∧
      (requiredCols.filter (fun col => !hasCol firstRow col) = [] →
        parseGoodreadsCSV now rows =
          Except.ok ((rows.filter rowHasTitle).map (rowEntry now)))) := by
  constructor
  · cases rows with
    | nil => simp [parseGoodreadsCSV]
    | cons r rest =>
        rw [parseGoodreadsCSV]
        by_cases h : (requiredCols.filter (fun col => !hasCol r col)).isEmpty = true
        · rw [if_pos h]
          simp
        · rw [if_neg h]
          simp
  · intro firstRow rest hr
    subst hr
    constructor
    · intro hne
      rw [parseGoodreadsCSV, if_neg (by simpa [List.isEmpty_iff] using hne)]
    · intro heq
      rw [parseGoodreadsCSV, if_pos (by simpa [List.isEmpty_iff] using heq)]

/-- Witness for C5: empty input, a header missing Author, and a table with
one blank-title row that is dropped while the good row is kept. -/
theorem parseGoodreadsCSV_spec_witness :
    parseGoodreadsCSV "t0" [] = Except.error CSVError.emptyInput ∧
    parseGoodreadsCSV "t0" [noAuthorRow] =
      Except.error (CSVError.schemaMismatch ["Author"]) ∧
    parseGoodreadsCSV "t0" [duneRow, blankTitleRow] = Except.ok [duneParsed "t0"] := by
  refine ⟨(parseGoodreadsCSV_spec "t0" []).1.2 rfl, ?_, ?_⟩
  · have h := ((parseGoodreadsCSV_spec "t0" [noAuthorRow]).2 noAuthorRow [] rfl).1
      (by decide)
    rw [h]
    rw [show requiredCols.filter (fun col => !hasCol noAuthorRow col) = ["Author"] from by decide]
  · have h := ((parseGoodreadsCSV_spec "t0" [duneRow, blankTitleRow]).2 duneRow
      [blankTitleRow] rfl).2 (by decide)
    rw [h]
    rw [show ([duneRow, blankTitleRow].filter rowHasTitle).map (rowEntry "t0") =
      [duneParsed "t0"] from by decide]

/-- C6 (amended): every record the adapter produces already carries a
populated identity key, equal to the key derived from its own title and
author, and a lastUpdated stamped with the parse-time timestamp; the store
then recomputes and restamps both on merge. -/
theorem parseGoodreadsCSV_populates (now : String) (rows : List Row)
    (books : List BookEntry) (h : parseGoodreadsCSV now rows = Except.ok books) :
    ∀ e ∈ books, e.book_key = makeKey e.title e.author ∧ e.date_updated = now := by
  cases rows with
  | nil => exact absurd h (by simp [parseGoodreadsCSV])
  | cons r rest =>
      rw [parseGoodreadsCSV] at h
      by_cases hmiss : (requiredCols.filter (fun col => !hasCol r col)).isEmpty = true
      · rw [if_pos hmiss] at h
        have hb : books = ((r :: rest).filter rowHasTitle).map (rowEntry now) :=
          (Except.ok.inj h).symm
        subst hb
        intro e he
        rcases List.mem_map.1 he with ⟨row, _, hrow⟩
        subst hrow
        exact ⟨rfl, rfl⟩
      · rw [if_neg hmiss] at h
        cases h

/-- Counterexample to C6 as stated: at a concrete one-row table the
adapter's output record has book_key and date_updated populated (the key
derived from title and author, and the parse timestamp), not left empty
for the store to assign. -/
theorem parseGoodreadsCSV_populates_cex :
    parseGoodreadsCSV "2024-06-01" [duneRow] = Except.ok [duneParsed "2024-06-01"] ∧
    (duneParsed "2024-06-01").book_key = "dune::frank herbert" ∧
    (duneParsed "2024-06-01").book_key ≠ "" ∧
    (duneParsed "2024-06-01").date_updated = "2024-06-01" := by
  refine ⟨rfl, rfl, by decide, rfl⟩

/-- Witness for C6 (amended) at the same concrete table and record. -/
theorem parseGoodreadsCSV_populates_witness :
    (duneParsed "2024-06-01").book_key =
        makeKey (duneParsed "2024-06-01").title (duneParsed "2024-06-01").author ∧
      (duneParsed "2024-06-01").date_updated = "2024-06-01" :=
  parseGoodreadsCSV_populates "2024-06-01" [duneRow] _ rfl
    (duneParsed "2024-06-01") (by decide)

theorem mergeBooks_fst (now : String) (st : List BookEntry) (inc : List IncomingBook) :
    (mergeBooks now st inc).1 = (mergeLoop now inc (mapOfStore st) 0).1 := rfl

theorem mergeBooks_updated_eq (now : String) (st : List BookEntry) (inc : List IncomingBook) :
    (mergeBooks now st inc).2.2 = (mergeLoop now inc (mapOfStore st) 0).2 := rfl

/-- C1 (amended): over a duplicate-key-free store, mergeBooks stores each
input record under its computed identity key as a full freshly-stamped
replacement (inserting when absent), returns the resulting total record
count, and — when the input's identity keys are pairwise distinct —
returns as updated the number of pre-existing records that were
overwritten; upsertBook applies exactly the semantics of a singleton
mergeBooks.  (With duplicate keys inside one input batch, records written
earlier in the same batch are also counted as updated.) -/
theorem mergeBooks_upsertBook_spec (now : String) (st : List BookEntry)
    (inc : List IncomingBook) (b : IncomingBook)
    (hst : (keysOf st).Nodup) (hinc : (inc.map keyOf).Nodup) :
    (∀ a ∈ inc, findByKey (mergeBooks now st inc).1 (keyOf a) = some (stampEntry now a)) ∧
    (mergeBooks now st inc).2.1 = (mergeBooks now st inc).1.length ∧
    (mergeBooks now st inc).2.2 = (inc.filter (fun a => hasKey st (keyOf a))).length ∧
    upsertBook now st b = (mergeBooks now st [b]).1 := by
  have hmap : mapOfStore st = st := mapOfStore_eq_self hst
  refine ⟨?_, rfl, ?_, ?_⟩
  · intro a ha
    exact mergeLoop_findByKey_self now inc (mapOfStore st) 0 hinc a ha
  · rw [mergeBooks_updated_eq, hmap, mergeLoop_updated now inc st 0 hinc]
    exact Nat.zero_add _
  · rw [upsertBook_eq_setEntry]
    show setEntry st (stampEntry now b) = (mergeLoop now [b] (mapOfStore st) 0).1
    rw [mergeLoop_cons, mergeLoop_nil, hmap]

/-- Witness for C1 at a one-entry store: the incoming Dune record is
inserted under its key, total is the store length, updated counts the
overwritten Emma record, and upsertBook agrees with singleton mergeBooks. -/
theorem mergeBooks_upsertBook_spec_witness :
    findByKey (mergeBooks "t1" [entryB] [bookB, bookA]).1 (keyOf bookA) =
        some (stampEntry "t1" bookA) ∧
    (mergeBooks "t1" [entryB] [bookB, bookA]).2.1 =
      (mergeBooks "t1" [entryB] [bookB, bookA]).1.length ∧
    (mergeBooks "t1" [entryB] [bookB, bookA]).2.2 =
      ([bookB, bookA].filter (fun a => hasKey [entryB] (keyOf a))).length ∧
    upsertBook "t1" [entryB] bookA = (mergeBooks "t1" [entryB] [bookA]).1 :=
  have h := mergeBooks_upsertBook_spec "t1" [entryB] [bookB, bookA] bookA
    (by decide) (by decide)
  ⟨h.1 bookA (by decide), h.2.1, h.2.2.1, h.2.2.2⟩

/-- Counterexample to C1 as stated: merging the same record twice into the
empty store reports updated = 1, although the empty prior store had no
record to overwrite. -/
theorem mergeBooks_updated_cex :
    (mergeBooks "t0" [] [bookA, bookA]).2.2 = 1 ∧ ([] : List BookEntry).length = 0 := by
  refine ⟨by decide, rfl⟩

/-- C2: every store state reachable by mergeBooks and upsertBook calls
from the empty store has pairwise-distinct identity keys, and every stored
record is keyed by the identity derived from its own title and author. -/
theorem reachable_storeInv (st : List BookEntry) (h : Reachable st) : StoreInv st := by
  induction h with
  | empty => exact ⟨List.nodup_nil, by intro e he; cases he⟩
  | merge now inc hst ih =>
      refine ⟨mergeLoop_nodup now inc _ 0 (mapOfStore_nodup _), ?_⟩
      intro e he
      rcases mergeLoop_mem now inc _ 0 he with h1 | h1
      · exact ih.2 e (mem_mapOfStore h1)
      · rcases h1 with ⟨b, _, rfl⟩
        rfl
  | upsert now b hst ih =>
      rw [upsertBook_eq_setEntry]
      refine ⟨keysOf_setEntry_nodup ih.1, ?_⟩
      intro e he
      rcases mem_of_mem_setEntry he with h1 | h1
      · rw [h1]
        rfl
      · exact ih.2 e h1

/-- Witness for C2 at a concrete reachable state: one merge then one
upsert from the empty store. -/
theorem reachable_storeInv_witness :
    StoreInv (upsertBook "t1" (mergeBooks "t0" [] [bookA]).1 bookB) :=
  reachable_storeInv _ (Reachable.upsert "t1" bookB (Reachable.merge "t0" [bookA] Reachable.empty))

/-- C3: re-merging the identical input list is a no-op on the counts: the
second call's total equals the first call's resulting total, and its
updated count equals the size of the input list — for every prior store,
input list, and pair of timestamps. -/
theorem mergeBooks_idempotent (now1 now2 : String) (st : List BookEntry)
    (inc : List IncomingBook) :
    (mergeBooks now2 (mergeBooks now1 st inc).1 inc).2.1 = (mergeBooks now1 st inc).2.1 ∧
    (mergeBooks now2 (mergeBooks now1 st inc).1 inc).2.2 = inc.length := by
  have hn1 : (keysOf (mergeBooks now1 st inc).1).Nodup :=
    mergeLoop_nodup now1 inc _ 0 (mapOfStore_nodup st)
  have hmap1 : mapOfStore (mergeBooks now1 st inc).1 = (mergeBooks now1 st inc).1 :=
    mapOfStore_eq_self hn1
  have hpresent : ∀ b ∈ inc, hasKey (mergeBooks now1 st inc).1 (keyOf b) = true := by
    intro b hb
    exact (mergeLoop_hasKey now1 inc (mapOfStore st) 0 (keyOf b)).2
      (Or.inr (List.mem_map_of_mem keyOf hb))
  have h2 := mergeLoop_all_present now2 inc (mapOfStore (mergeBooks now1 st inc).1) 0
    (by rw [hmap1]; exact hpresent)
  constructor
  · show (mergeLoop now2 inc (mapOfStore (mergeBooks now1 st inc).1) 0).1.length
      = (mergeBooks now1 st inc).1.length
    rw [h2.1, hmap1]
  · show (mergeLoop now2 inc (mapOfStore (mergeBooks now1 st inc).1) 0).2 = inc.length
    rw [h2.2]
    exact Nat.zero_add _

/-- C10: over a duplicate-key-free store, mergeBooks keeps every stored
record whose key matches no input record (same entry value, all fields
including date_updated), and deletes nothing: the key set afterwards is
exactly the union of the prior keys and the input keys. -/
theorem mergeBooks_frame (now : String) (st : List BookEntry) (inc : List IncomingBook)
    (hst : (keysOf st).Nodup) :
    (∀ e ∈ st, e.book_key ∉ inc.map keyOf → e ∈ (mergeBooks now st inc).1) ∧
    (∀ k, k ∈ keysOf (mergeBooks now st inc).1 ↔ k ∈ keysOf st ∨ k ∈ inc.map keyOf) := by
  have hmap : mapOfStore st = st := mapOfStore_eq_self hst
  have hfst : (mergeBooks now st inc).1 = (mergeLoop now inc st 0).1 := by
    rw [mergeBooks_fst, hmap]
  constructor
  · intro e he hk
    rw [hfst]
    exact mergeLoop_frame now inc st 0 he hk
  · intro k
    have hthis := mergeLoop_hasKey now inc st 0 k
    rw [keysOf, hfst, ← keysOf]
    constructor
    · intro hkmem
      rcases hthis.1 (hasKey_iff.2 hkmem) with h1 | h1
      · exact Or.inl (hasKey_iff.1 h1)
      · exact Or.inr h1
    · intro hkmem
      apply hasKey_iff.1
      apply hthis.2
      rcases hkmem with h1 | h1
      · exact Or.inl (hasKey_iff.2 h1)
      · exact Or.inr h1

/-- Witness for C10: the untouched Emma entry survives a merge of Dune,
and the key-set union holds at the Dune key. -/
theorem mergeBooks_frame_witness :
    entryB ∈ (mergeBooks "t1" [entryB] [bookA]).1 ∧
    ("dune::frank herbert" ∈ keysOf (mergeBooks "t1" [entryB] [bookA]).1 ↔
      "dune::frank herbert" ∈ keysOf [entryB] ∨
        "dune::frank herbert" ∈ [bookA].map keyOf) :=
  ⟨(mergeBooks_frame "t1" [entryB] [bookA] (by decide)).1 entryB (by decide) (by decide),
   (mergeBooks_frame "t1" [entryB] [bookA] (by decide)).2 "dune::frank herbert"⟩
